import Mathlib

set_option maxRecDepth 100000

/-!
Verification of the ch.at DNS / rate-limiting / stream-accumulation core.

Go strings and byte buffers are modelled as `List Nat` (one entry per byte);
Go runes as `Char`; Go `float64` token counts and wall-clock seconds as `ℚ`.
Each definition is a direct transcription of the corresponding Go function.
-/

namespace ChAt

/-- A Go string / byte slice, one `Nat` per byte. -/
abbrev GoStr := List Nat

/-- Bytes of an ASCII Lean string literal (all source literals are ASCII). -/
def strBytes (s : String) : GoStr := s.data.map Char.toNat

/-! ## DNS TXT RDATA chunking (`buildTXTData`, src/unnamed/part_002) -/

/-- The chunking loop of `buildTXTData` (`for len(text) > 0`), written with an
explicit iteration budget so that it is structurally recursive: every
iteration consumes `chunkLen ≥ 1` bytes, so a budget of `len(text)` makes the
budget-exhausted branch unreachable. -/
def buildTXTDataGo : Nat → GoStr → GoStr
  | 0, _ => []
  | fuel + 1, text =>
    if text = [] then []
    else
      let chunkLen := min text.length 255
      chunkLen :: (text.take chunkLen ++ buildTXTDataGo fuel (text.drop chunkLen))

/-- Function `buildTXTData` from the hand-rolled DNS server: splits `text` into
length-prefixed chunks of at most 255 bytes (`data = append(data, byte(chunkLen));
data = append(data, text[:chunkLen]...)`), looping while `len(text) > 0`. -/
def buildTXTData (text : GoStr) : GoStr := buildTXTDataGo text.length text

/-- Parser loop for TXT RDATA with an iteration budget (each step consumes the
length byte, so `len(data)` iterations always suffice). -/
def parseCharStringsGo : Nat → GoStr → Option (List GoStr)
  | _, [] => some []
  | 0, _ :: _ => none
  | fuel + 1, len :: rest =>
    if rest.length < len then none
    else
      match parseCharStringsGo fuel (rest.drop len) with
      | none => none
      | some cs => some (rest.take len :: cs)

/-- Parser for TXT RDATA: a sequence of length-prefixed character-strings.
Fails if a length prefix overruns the remaining bytes. -/
def parseCharStrings (data : GoStr) : Option (List GoStr) :=
  parseCharStringsGo data.length data

/-! ## DNS query decoding and response encoding (src/unnamed/part_002) -/

/-- The label-walking loop of `extractQuestion` (`for i := 0; i < 128 && pos < len(query); i++`).
`fuel` is the remaining iteration count (starting at 128), `pos` the cursor,
`total` the accumulated name length, `acc` the labels collected so far.
`none` models `return ""` from inside the loop body; `some (acc, pos)` models
leaving the loop (zero-length label `break`, cursor at end, or 128 iterations).
The body's redundant `if pos >= len(query)` re-check is subsumed by the loop
condition and not repeated here. -/
def parseLoop (query : GoStr) : Nat → Nat → Nat → List GoStr → Option (List GoStr × Nat)
  | 0, pos, _, acc => some (acc, pos)
  | fuel + 1, pos, total, acc =>
    if query.length ≤ pos then some (acc, pos)
    else if query.getD pos 0 = 0 then some (acc, pos)
    else if query.getD pos 0 &&& 0xC0 = 0xC0 then none
    else if 63 < query.getD pos 0 then none
    else if query.length < pos + 1 + query.getD pos 0 then none
    else if 255 < total + query.getD pos 0 + 1 then none
    else parseLoop query fuel (pos + 1 + query.getD pos 0) (total + query.getD pos 0 + 1)
          (acc ++ [(query.drop (pos + 1)).take (query.getD pos 0)])

/-- Function `extractQuestion`: reject short packets, walk the labels from offset 12,
require 4 further bytes from the loop-exit position (`if pos+4 > len(query)`),
and join the labels with `"."` (byte `0x2E`). The empty result models Go's
`""` failure value. -/
def extractQuestion (query : GoStr) : GoStr :=
  if query.length < 12 then []
  else
    match parseLoop query 128 12 0 [] with
    | none => []
    | some (name, pos) =>
      if query.length < pos + 4 then []
      else (name.intersperse [0x2E]).flatten

/-- Function `buildDNSResponse`: copy the query, overwrite flag bytes 2/3 with
`0x81`/`0x80`, set ANCOUNT low byte (index 7) to 1, then append the answer
record: compression pointer `C0 0C`, TYPE TXT, CLASS IN, TTL 0, the 2-byte
RDLENGTH and the chunked TXT data.  (The Go code also scans for the end of
the question section but never uses the resulting position.) -/
def buildDNSResponse (query : GoStr) (answer : GoStr) : GoStr :=
  let resp := ((query.set 2 0x81).set 3 0x80).set 7 1
  let txtData := buildTXTData answer
  resp ++ [0xC0, 0x0C, 0x00, 0x10, 0x00, 0x01, 0x00, 0x00, 0x00, 0x00]
    ++ [txtData.length / 256 % 256, txtData.length % 256] ++ txtData

/-- Function `handleQuery`, returning the datagram written back (`none` = no reply).
`rateAllowed` abstracts `rateLimiter.Allow(addr.String())` and `llmText` the
final response text (`getLLMResponse` output, or `"Error: " + err.Error()`);
the prompt-rewriting between decode and the LLM call does not influence the
reply bytes and is not repeated here. -/
def handleQuery (rateAllowed : Bool) (llmText : GoStr) (query : GoStr) : Option GoStr :=
  if query.length < 12 then none
  else if !rateAllowed then none
  else if query.getD 2 0 &&& 0x80 ≠ 0 then none
  else if extractQuestion query = [] then none
  else
    let reply := buildDNSResponse query llmText
    if 512 < reply.length then
      some ((reply.take 512).set 2 ((reply.getD 2 0) ||| 0x02))
    else some reply

/-- Byte encoding of a label list as produced by a well-formed sender:
each label as its length byte followed by its bytes. -/
def encodeLabels (ls : List GoStr) : GoStr := ls.flatMap (fun l => l.length :: l)

/-- Labels acceptable to the walker: nonempty and at most 63 bytes. -/
abbrev validLabels (ls : List GoStr) : Prop := ∀ l ∈ ls, 1 ≤ l.length ∧ l.length ≤ 63

/-- Wire length of the encoded name: one length byte plus the bytes per label. -/
def nameLen (ls : List GoStr) : Nat := (ls.map (fun l => l.length + 1)).sum

/-- A datagram containing, at a label-length position of its name section, a
byte over 63 — a compression pointer (top two bits `11`) or an overlong
label length.  `hdr` is the 12-byte header, `ls` the well-formed labels
walked before the offending byte. -/
def hasBadLabelByte (q : GoStr) : Prop :=
  ∃ hdr ls b rest, q = hdr ++ encodeLabels ls ++ b :: rest ∧ hdr.length = 12 ∧
    validLabels ls ∧ nameLen ls ≤ 255 ∧ 63 < b

/-- A datagram whose label sequence assembles to a name longer than 255
bytes (counting the length byte of each label, as `extractQuestion` does). -/
def hasOverlongName (q : GoStr) : Prop :=
  ∃ hdr ls rest, q = hdr ++ encodeLabels ls ++ rest ∧ hdr.length = 12 ∧
    validLabels ls ∧ 255 < nameLen ls

/-! ## Deadline-bounded stream accumulation (`handleDNS`, src/unnamed/part_001)

The `select` loop of `handleDNS` waits for a fragment on `ch`, the channel
closing, or the 4-second deadline.  An execution is modelled as the sequence
of events the loop observes, in order. -/

/-- One observable event of the `select` loop. -/
inductive DNSEvent where
  | chunk (s : GoStr)
  | closed
  | deadline
deriving DecidableEq

/-- The literal written when the deadline fires with nothing accumulated. -/
def timedOutBytes : GoStr := strBytes "Request timed out"

/-- The marker appended when the deadline fires with a partial accumulation. -/
def incompleteBytes : GoStr := strBytes "... (incomplete)"

/-- The ellipsis appended by the final hard truncation. -/
def ellipsisBytes : GoStr := strBytes "..."

/-- The accumulation loop (`for { select { ... } }`): returns the
`(response, channelClosed)` pair live at the `respond:` label, or `none` if
the event sequence ends without the loop exiting (the loop would still be
blocked).  A fragment is appended and the loop exits once
`response.Len() >= 500`; a closed channel exits with `channelClosed = true`;
the deadline writes the timeout literal (empty accumulation) or the
incomplete marker (`channelClosed` is still `false` at that point) and
exits. -/
def accumLoop : List DNSEvent → GoStr → Bool → Option (GoStr × Bool)
  | [], _, _ => none
  | DNSEvent.chunk s :: es, resp, cc =>
    if 500 ≤ (resp ++ s).length then some (resp ++ s, cc)
    else accumLoop es (resp ++ s) cc
  | DNSEvent.closed :: _, resp, _ => some (resp, true)
  | DNSEvent.deadline :: _, resp, cc =>
    if resp.length = 0 then some (resp ++ timedOutBytes, cc)
    else if cc = false then some (resp ++ incompleteBytes, cc)
    else some (resp, cc)

/-- The final clamp after `respond:`: over 500 bytes, or exactly 500 bytes
with the stream still open, becomes the first 497 bytes plus `"..."`. -/
def finalizeResponse (r : GoStr) (cc : Bool) : GoStr :=
  if 500 < r.length then r.take 497 ++ ellipsisBytes
  else if r.length = 500 ∧ cc = false then r.take 497 ++ ellipsisBytes
  else r

/-- The response text `handleDNS` encodes into TXT strings, for a given
event sequence (`none` if the loop never exits within the sequence). -/
def handleDNSText (events : List DNSEvent) : Option GoStr :=
  (accumLoop events [] false).map (fun rc => finalizeResponse rc.1 rc.2)

/-- Concatenated fragment text of an event sequence. -/
def chunksText : List DNSEvent → GoStr
  | [] => []
  | DNSEvent.chunk s :: es => s ++ chunksText es
  | _ :: es => chunksText es

/-- Whether an event is a fragment arrival. -/
def isChunkEvent : DNSEvent → Bool
  | DNSEvent.chunk _ => true
  | _ => false

/-! ## Per-IP rate limiting (`rateLimitAllow`, src/util.go)

`rateLimitAllow` keeps one `golang.org/x/time/rate` `rate.Limiter` per IP —
a token bucket created by `rate.NewLimiter(100.0/60, 10)` — plus an hourly
cleanup pass.  Time is in nanoseconds (`Int`, Go's `time.Time` resolution),
with the zero `time.Time` stored by a fresh limiter sitting at 0, so any
realistic wall-clock instant is far above the 6 seconds of refill that fill
the burst from empty.  Token counts (float64 in the library, idealized here
to exact arithmetic) are kept in units of one third of a nanotoken — one
token is `oneToken = 3·10⁹` units — so the refill rate of 100/60 tokens per
second is exactly `refillPerNs = 5` units per nanosecond and all values stay
integral. -/

/-- One token, in token units (`3·10⁹`). -/
def oneToken : Int := 3000000000

/-- The burst capacity of 10 tokens, in token units. -/
def burstUnits : Int := 30000000000

/-- The refill rate `100.0/60` tokens per second: 5 units per nanosecond. -/
def refillPerNs : Int := 5

/-- One `time.Hour` in nanoseconds. -/
def hourNs : Int := 3600000000000

/-- Six seconds in nanoseconds: from the zero time, the first instant at
which a fresh limiter's refill reaches the full burst. -/
def sixSecondsNs : Int := 6000000000

/-- A `rate.Limiter`'s mutable state: `lim.tokens` (token units) and
`lim.last` (nanoseconds). -/
structure Limiter where
  tokens : Int
  last : Int

/-- Constructor `rate.NewLimiter(100.0/60, 10)` leaves `tokens` and `last` zeroed; the
first `advance` then refills from the zero time. -/
def newLimiter : Limiter := ⟨0, 0⟩

/-- Method `lim.advance(t)`: the token count after elapsed-time refill, capped at
the burst (`last` is clamped to `t` if the clock ran backwards). -/
def advanceTokens (l : Limiter) (t : Int) : Int :=
  if burstUnits < l.tokens + (t - (if t < l.last then t else l.last)) * refillPerNs
  then burstUnits
  else l.tokens + (t - (if t < l.last then t else l.last)) * refillPerNs

/-- Method `lim.Allow()` at instant `t` (i.e. `reserveN(t, 1, 0)`): succeeds iff a
full token is available after refill, consuming it and recording `t`; a
failed call leaves the limiter untouched. -/
def limiterAllow (l : Limiter) (t : Int) : Bool × Limiter :=
  if oneToken ≤ advanceTokens l t then (true, ⟨advanceTokens l t - oneToken, t⟩)
  else (false, l)

/-- The package-level state: the `limiters` map and `lastClean`. -/
structure RLState where
  limiters : String → Option Limiter
  lastClean : Int

/-- The hourly cleanup pass: delete every limiter currently holding a full
burst (`l.Tokens() >= 10`; `Tokens` reads without mutating). -/
def cleanPass (m : String → Option Limiter) (now : Int) : String → Option Limiter :=
  fun k =>
    match m k with
    | some l => if burstUnits ≤ advanceTokens l now then none else some l
    | none => none

/-- Function `rateLimitAllow` acting on the already-extracted IP key: run the cleanup
if over an hour passed since `lastClean`, `LoadOrStore` the key's limiter
(storing a fresh one on miss), and call `Allow`.  The `net.SplitHostPort`
address-to-IP extraction ahead of this logic is deterministic string
surgery that the claims quantify over, so it is not repeated here. -/
def rateLimitAllow (s : RLState) (now : Int) (ip : String) : Bool × RLState :=
  let s1 := if hourNs < now - s.lastClean then
    { limiters := cleanPass s.limiters now, lastClean := now } else s
  let res := limiterAllow ((s1.limiters ip).getD newLimiter) now
  (res.1, { limiters := fun k => if k = ip then some res.2 else s1.limiters k,
            lastClean := s1.lastClean })

/-- Function `rateLimitAllow` with the cleanup pass deleted (C10 compares the two). -/
def rateLimitAllowNoClean (m : String → Option Limiter) (now : Int) (ip : String) :
    Bool × (String → Option Limiter) :=
  let res := limiterAllow ((m ip).getD newLimiter) now
  (res.1, fun k => if k = ip then some res.2 else m k)

/-- The results of a sequence of timed `Allow` calls. -/
def runAllow (s : RLState) : List (Int × String) → List Bool
  | [] => []
  | (t, ip) :: cs =>
    (rateLimitAllow s t ip).1 :: runAllow (rateLimitAllow s t ip).2 cs

/-- The results of the same calls without the cleanup pass. -/
def runAllowNoClean (m : String → Option Limiter) : List (Int × String) → List Bool
  | [] => []
  | (t, ip) :: cs =>
    (rateLimitAllowNoClean m t ip).1 ::
      runAllowNoClean (rateLimitAllowNoClean m t ip).2 cs

/-- A limiter that refills to the full burst at every instant from `t` on
(a full bucket, or a fresh limiter once the clock passed 6 seconds). -/
def saturatedFrom (l : Limiter) (t : Int) : Prop :=
  ∀ s : Int, t ≤ s → advanceTokens l s = burstUnits

/-- C10's simulation relation at time horizon `t`: each key is identical in
the two tables, or was cleaned from the first while saturated in the
second. -/
def TableRel (t : Int) (mw mo : String → Option Limiter) : Prop :=
  (∀ k, mw k = mo k ∨ (mw k = none ∧ ∃ l, mo k = some l ∧ saturatedFrom l t)) ∧
  (∀ k l, mw k = some l → l.last ≤ t) ∧
  (∀ k l, mo k = some l → l.last ≤ t)

/-! ## SSH line editing (`handleSession`, src/unnamed/part_005)

The session read loop decodes the received bytes as UTF-8
(`for _, ch := range data`) and dispatches per rune; the line buffer
(`strings.Builder` written by `WriteRune`) is modelled as its rune list. -/

/-- The outcome of dispatching one rune: the new line buffer, the bytes
echoed, whether the session terminated, and a submitted line if any.
(Streaming the generated answer and re-printing the prompt after a
submission happen outside the dispatch and are not part of a step.) -/
structure SessionStep where
  input : List Char
  echo : List Char
  terminated : Bool
  submitted : Option (List Char)
deriving DecidableEq

/-- Predicate `unicode.IsSpace` over the Latin-1 range (ASCII whitespace, NEL, NBSP);
the higher Unicode space table never reaches the claims. -/
def goIsSpace (c : Char) : Bool :=
  c = ' ' || c = Char.ofNat 9 || c = Char.ofNat 10 || c = Char.ofNat 11 ||
    c = Char.ofNat 12 || c = Char.ofNat 13 || c = Char.ofNat 0x85 || c = Char.ofNat 0xA0

/-- Function `strings.TrimSpace`. -/
def goTrimSpace (s : List Char) : List Char :=
  ((s.dropWhile goIsSpace).reverse.dropWhile goIsSpace).reverse

/-- The per-rune dispatch of `handleSession`'s read loop: Ctrl+C terminates
echoing `"^C\r\n"`; CR/LF echoes `"\r\n"` and, on a nonempty buffer, trims
it and either terminates (the `"exit"` sentinel) or submits it; backspace
(0x08) and delete (0x7F) on a nonempty buffer drop the last rune
(`runes[:len(runes)-1]`) and echo `"\b \b"`; anything else is appended and
echoed. -/
def sessionStep (input : List Char) (c : Char) : SessionStep :=
  if c = Char.ofNat 3 then
    { input := input, echo := ['^', 'C', Char.ofNat 13, Char.ofNat 10],
      terminated := true, submitted := none }
  else if c = Char.ofNat 10 ∨ c = Char.ofNat 13 then
    if 0 < input.length then
      if goTrimSpace input = "exit".data then
        { input := [], echo := [Char.ofNat 13, Char.ofNat 10],
          terminated := true, submitted := none }
      else
        { input := [], echo := [Char.ofNat 13, Char.ofNat 10],
          terminated := false, submitted := some (goTrimSpace input) }
    else
      { input := input, echo := [Char.ofNat 13, Char.ofNat 10],
        terminated := false, submitted := none }
  else if c = Char.ofNat 8 ∨ c = Char.ofNat 127 then
    if 0 < input.length then
      { input := input.dropLast, echo := [Char.ofNat 8, ' ', Char.ofNat 8],
        terminated := false, submitted := none }
    else
      { input := input, echo := [], terminated := false, submitted := none }
  else
    { input := input ++ [c], echo := [c], terminated := false, submitted := none }

/-! ## Concrete fixtures used by counterexamples and witnesses -/

/-- A well-formed 19-byte TXT query: ID `0x1234`, RD, one question for the
name `a.` (label `[1, 'a']`, terminator, TYPE TXT, CLASS IN). -/
def exampleQuery : GoStr :=
  [0x12, 0x34, 1, 0, 0, 1, 0, 0, 0, 0, 0, 0, 1, 97, 0, 0, 16, 0, 1]

/-- A 500-byte answer, long enough that the assembled response exceeds 512
bytes. -/
def longAnswer : GoStr := List.replicate 500 65

end ChAt

namespace ChAt

/-- The TXT parser ignores any iteration budget large enough for its input. -/
theorem parseCharStringsGo_congr :
    ∀ f₁ f₂ (d : GoStr), d.length ≤ f₁ → d.length ≤ f₂ →
      parseCharStringsGo f₁ d = parseCharStringsGo f₂ d := by
  intro f₁
  induction f₁ with
  | zero =>
    intro f₂ d h1 _
    have hd : d = [] := List.eq_nil_of_length_eq_zero (Nat.le_zero.mp h1)
    subst hd
    cases f₂ <;> rfl
  | succ g ih =>
    intro f₂ d h1 h2
    cases d with
    | nil => cases f₂ <;> rfl
    | cons len rest =>
      have hr : rest.length ≤ g := by
        simp only [List.length_cons] at h1; omega
      obtain ⟨h, rfl⟩ : ∃ h, f₂ = h + 1 := by
        refine ⟨f₂ - 1, ?_⟩
        simp only [List.length_cons] at h2; omega
      have hrh : rest.length ≤ h := by
        simp only [List.length_cons] at h2; omega
      have hdl : (rest.drop len).length ≤ rest.length := by
        simp [List.length_drop]
      simp only [parseCharStringsGo]
      rw [ih h (rest.drop len) (le_trans hdl hr) (le_trans hdl hrh)]

/-- One-step unfolding of `parseCharStrings` on a nonempty input. -/
theorem parseCharStrings_cons (len : Nat) (rest : GoStr) :
    parseCharStrings (len :: rest) =
      if rest.length < len then none
      else
        match parseCharStrings (rest.drop len) with
        | none => none
        | some cs => some (rest.take len :: cs) := by
  show parseCharStringsGo (len :: rest).length (len :: rest) = _
  simp only [List.length_cons, parseCharStringsGo]
  rw [parseCharStringsGo_congr rest.length (rest.drop len).length (rest.drop len)
    (by simp [List.length_drop]) le_rfl]
  rfl

/-- C2: the TXT RDATA built by `buildTXTData` parses as exactly
`ceil(N/255)` character-strings, each of at most 255 bytes, whose
concatenation is the original text. -/
theorem buildTXTData_roundtrip (t : GoStr) :
    ∃ cs, parseCharStrings (buildTXTData t) = some cs ∧
      cs.length = (t.length + 254) / 255 ∧
      (∀ c ∈ cs, c.length ≤ 255) ∧
      cs.flatten = t := by
  have main : ∀ n (t : GoStr), t.length ≤ n →
      ∃ cs, parseCharStrings (buildTXTDataGo n t) = some cs ∧
        cs.length = (t.length + 254) / 255 ∧
        (∀ c ∈ cs, c.length ≤ 255) ∧
        cs.flatten = t := by
    intro n
    induction n with
    | zero =>
      intro t ht
      have : t = [] := List.eq_nil_of_length_eq_zero (Nat.le_zero.mp ht)
      subst this
      exact ⟨[], rfl, by norm_num, by simp, by simp⟩
    | succ n ih =>
      intro t ht
      by_cases h0 : t = []
      · subst h0
        exact ⟨[], rfl, by norm_num, by simp, by simp⟩
      · have hlen1 : 1 ≤ t.length := by
          cases t with
          | nil => exact absurd rfl h0
          | cons a l => simp
        have hcmin : 1 ≤ min t.length 255 := le_min hlen1 (by norm_num)
        have hcle : min t.length 255 ≤ t.length := min_le_left _ _
        have hbuild : buildTXTDataGo (n + 1) t =
            (min t.length 255) ::
              (t.take (min t.length 255) ++ buildTXTDataGo n (t.drop (min t.length 255))) := by
          simp only [buildTXTDataGo, if_neg h0]
        set c := min t.length 255 with hc
        obtain ⟨cs', hp', hlen', hub', hfl'⟩ := ih (t.drop c) (by
          simp only [List.length_drop]
          omega)
        have htake : (t.take c).length = c := by
          simp [List.length_take, hcle]
        refine ⟨t.take c :: cs', ?_, ?_, ?_, ?_⟩
        · rw [hbuild, parseCharStrings_cons]
          have hrl : (t.take c ++ buildTXTDataGo n (t.drop c)).length =
              c + (buildTXTDataGo n (t.drop c)).length := by
            simp [htake]
          have hnlt : ¬ ((t.take c ++ buildTXTDataGo n (t.drop c)).length < c) := by
            rw [hrl]; omega
          rw [if_neg hnlt]
          have hdropeq : (t.take c ++ buildTXTDataGo n (t.drop c)).drop c =
              buildTXTDataGo n (t.drop c) := List.drop_left' htake
          have htakeeq : (t.take c ++ buildTXTDataGo n (t.drop c)).take c = t.take c :=
            List.take_left' htake
          rw [hdropeq, hp', htakeeq]
        · simp only [List.length_cons, hlen']
          simp only [List.length_drop]
          rcases Nat.le_total t.length 255 with hle | hge
          · have : c = t.length := by omega
            rw [this]
            omega
          · have : c = 255 := by omega
            rw [this]
            omega
        · intro x hx
          rcases List.mem_cons.mp hx with hx | hx
          · subst hx; rw [htake]; exact min_le_right _ _
          · exact hub' x hx
        · simp only [List.flatten_cons, hfl']
          exact List.take_append_drop c t
  exact main t.length t le_rfl

/-! ### Stream accumulation lemmas -/

/-- The final clamp never lets more than 500 bytes through. -/
theorem finalizeResponse_length_le (r : GoStr) (cc : Bool) :
    (finalizeResponse r cc).length ≤ 500 := by
  unfold finalizeResponse
  by_cases h1 : 500 < r.length
  · rw [if_pos h1]
    simp only [List.length_append, List.length_take]
    have : ellipsisBytes.length = 3 := rfl
    omega
  · rw [if_neg h1]
    by_cases h2 : r.length = 500 ∧ cc = false
    · rw [if_pos h2]
      simp only [List.length_append, List.length_take]
      have : ellipsisBytes.length = 3 := rfl
      omega
    · rw [if_neg h2]
      omega

/-- C6: whatever the fragment sequence and however arrival, termination and
deadline interleave, any produced response text is at most 500 bytes. -/
theorem handleDNSText_length_le (events : List DNSEvent) (out : GoStr)
    (h : handleDNSText events = some out) : out.length ≤ 500 := by
  unfold handleDNSText at h
  cases hacc : accumLoop events [] false with
  | none => rw [hacc] at h; exact absurd h (by simp)
  | some rc =>
    rw [hacc] at h
    have h2 : finalizeResponse rc.1 rc.2 = out := Option.some.inj h
    exact h2 ▸ finalizeResponse_length_le rc.1 rc.2

/-- Witness for C6 at a concrete event sequence. -/
theorem handleDNSText_length_le_witness :
    handleDNSText [DNSEvent.deadline] = some timedOutBytes ∧
      timedOutBytes.length ≤ 500 :=
  ⟨by decide, handleDNSText_length_le [DNSEvent.deadline] timedOutBytes (by decide)⟩

/-- A run that exhausts its events without exiting only appended fragments. -/
theorem accumLoop_none_append (es es₂ : List DNSEvent) (resp : GoStr) (cc : Bool)
    (h : accumLoop es resp cc = none) :
    accumLoop (es ++ es₂) resp cc = accumLoop es₂ (resp ++ chunksText es) cc := by
  induction es generalizing resp with
  | nil =>
    show accumLoop es₂ resp cc = accumLoop es₂ (resp ++ chunksText []) cc
    rw [show chunksText [] = [] from rfl, List.append_nil]
  | cons e es ih =>
    cases e with
    | chunk s =>
      rw [accumLoop] at h
      by_cases hlt : 500 ≤ (resp ++ s).length
      · rw [if_pos hlt] at h; exact absurd h (by simp)
      · rw [if_neg hlt] at h
        show accumLoop (DNSEvent.chunk s :: (es ++ es₂)) resp cc = _
        rw [accumLoop, if_neg hlt, ih (resp ++ s) h,
          show chunksText (DNSEvent.chunk s :: es) = s ++ chunksText es from rfl,
          List.append_assoc]
    | closed => exact absurd h (by rw [accumLoop]; simp)
    | deadline =>
      rw [accumLoop] at h
      by_cases h0 : resp.length = 0
      · rw [if_pos h0] at h; exact absurd h (by simp)
      · rw [if_neg h0] at h
        by_cases hcc : cc = false
        · rw [if_pos hcc] at h; exact absurd h (by simp)
        · rw [if_neg hcc] at h; exact absurd h (by simp)

/-- Entering every fragment of a non-exiting run keeps the total under 500. -/
theorem accumLoop_none_length (es : List DNSEvent) (resp : GoStr) (cc : Bool)
    (h : accumLoop es resp cc = none) (h0 : resp.length < 500) :
    (resp ++ chunksText es).length < 500 := by
  induction es generalizing resp with
  | nil => simpa [chunksText]
  | cons e es ih =>
    cases e with
    | chunk s =>
      rw [accumLoop] at h
      by_cases hlt : 500 ≤ (resp ++ s).length
      · rw [if_pos hlt] at h; exact absurd h (by simp)
      · rw [if_neg hlt] at h
        have hrec := ih (resp ++ s) h (by omega)
        rw [show chunksText (DNSEvent.chunk s :: es) = s ++ chunksText es from rfl,
          ← List.append_assoc]
        exact hrec
    | closed => exact absurd h (by rw [accumLoop]; simp)
    | deadline =>
      rw [accumLoop] at h
      by_cases hz : resp.length = 0
      · rw [if_pos hz] at h; exact absurd h (by simp)
      · rw [if_neg hz] at h
        by_cases hcc : cc = false
        · rw [if_pos hcc] at h; exact absurd h (by simp)
        · rw [if_neg hcc] at h; exact absurd h (by simp)

/-- C7 counterexample: a 499-byte accumulation followed by the deadline.  The
final clamp cuts the text to 497 bytes plus `"..."`, so the result is *not*
the accumulated text with the incompleteness marker appended. -/
theorem deadline_partial_counterexample :
    handleDNSText [DNSEvent.chunk (List.replicate 499 97), DNSEvent.deadline] =
      some (List.replicate 497 97 ++ ellipsisBytes) ∧
    List.replicate 497 97 ++ ellipsisBytes ≠
      List.replicate 499 97 ++ incompleteBytes := by decide

/-- C7 (amended): when the deadline fires before stream termination, an empty
accumulation yields exactly `"Request timed out"`; otherwise the
incompleteness marker is appended and the combined text is then subject to
the final 500-byte clamp — in particular it survives verbatim whenever the
accumulated text is at most 483 bytes. -/
theorem deadline_result (es : List DNSEvent) (h : accumLoop es [] false = none) :
    (chunksText es = [] →
      handleDNSText (es ++ [DNSEvent.deadline]) = some timedOutBytes) ∧
    (chunksText es ≠ [] →
      handleDNSText (es ++ [DNSEvent.deadline]) =
        some (finalizeResponse (chunksText es ++ incompleteBytes) false) ∧
      ((chunksText es).length ≤ 483 →
        handleDNSText (es ++ [DNSEvent.deadline]) =
          some (chunksText es ++ incompleteBytes))) := by
  have hstep := accumLoop_none_append es [DNSEvent.deadline] [] false h
  rw [List.nil_append] at hstep
  unfold handleDNSText
  rw [hstep]
  constructor
  · intro hnil
    rw [hnil]
    decide
  · intro hne
    have hlen0 : ¬ (chunksText es).length = 0 := by
      intro h0
      exact hne (List.eq_nil_of_length_eq_zero h0)
    have hlt : (chunksText es).length < 500 := by
      have h5 := accumLoop_none_length es [] false h (by norm_num)
      rw [List.nil_append] at h5
      exact h5
    have hdl : accumLoop [DNSEvent.deadline] (chunksText es) false =
        some (chunksText es ++ incompleteBytes, false) := by
      rw [accumLoop, if_neg hlen0, if_pos rfl]
    rw [hdl]
    refine ⟨rfl, ?_⟩
    intro h483
    have hic : incompleteBytes.length = 16 := rfl
    have hl : (chunksText es ++ incompleteBytes).length =
        (chunksText es).length + 16 := by
      rw [List.length_append, hic]
    show some (finalizeResponse (chunksText es ++ incompleteBytes) false) = _
    unfold finalizeResponse
    rw [if_neg (by omega), if_neg (by
      intro hcj
      omega)]

/-- Witness for C7 (amended) at a concrete one-fragment run. -/
theorem deadline_result_witness :
    handleDNSText [DNSEvent.chunk [97], DNSEvent.deadline] =
      some ([97] ++ incompleteBytes) :=
  ((deadline_result [DNSEvent.chunk [97]] (by decide)).2 (by decide)).2 (by decide)

/-- A run of fragments whose total is exactly 500 bytes exits the loop at the
limit with `channelClosed = false` and the whole concatenation accumulated. -/
theorem accumLoop_exact_500 (es : List DNSEvent) (resp : GoStr)
    (hall : ∀ e ∈ es, isChunkEvent e = true)
    (hl : (resp ++ chunksText es).length = 500) (h0 : resp.length < 500) :
    accumLoop es resp false = some (resp ++ chunksText es, false) := by
  induction es generalizing resp with
  | nil =>
    exfalso
    rw [show chunksText [] = [] from rfl, List.append_nil] at hl
    omega
  | cons e es ih =>
    cases e with
    | chunk s =>
      have hct : chunksText (DNSEvent.chunk s :: es) = s ++ chunksText es := rfl
      rw [accumLoop]
      by_cases hlt : 500 ≤ (resp ++ s).length
      · have h1 : resp.length + s.length + (chunksText es).length = 500 := by
          rw [hct] at hl
          simp only [List.length_append] at hl ⊢
          omega
        have h2 : (chunksText es).length = 0 := by
          simp only [List.length_append] at hlt
          omega
        have h3 : chunksText es = [] := List.eq_nil_of_length_eq_zero h2
        rw [if_pos hlt, hct, h3, List.append_nil]
      · rw [if_neg hlt]
        have hrec := ih (resp ++ s)
          (fun e he => hall e (List.mem_cons_of_mem _ he))
          (by rw [List.append_assoc]; rw [hct] at hl; exact hl)
          (by omega)
        rw [hct, ← List.append_assoc]
        exact hrec
    | closed =>
      exact absurd (hall DNSEvent.closed (List.mem_cons_self _ _)) (by decide)
    | deadline =>
      exact absurd (hall DNSEvent.deadline (List.mem_cons_self _ _)) (by decide)

/-- C8 counterexample: one fragment of exactly 500 bytes.  The result has
length 500 but *does* end with the three-byte truncation marker. -/
theorem exact_limit_counterexample :
    handleDNSText [DNSEvent.chunk (List.replicate 500 97)] =
      some (List.replicate 497 97 ++ ellipsisBytes) ∧
    (List.replicate 497 97 ++ ellipsisBytes).length = 500 ∧
    (List.replicate 497 97 ++ ellipsisBytes).drop 497 = ellipsisBytes := by decide

/-- C8 (amended): when the fragments delivered total exactly 500 bytes, the
loop exits at the limit with the stream still open, and the result is the
first 497 bytes plus `"..."` — length exactly 500, ending in the
truncation marker. -/
theorem exact_limit_truncates (es : List DNSEvent)
    (hall : ∀ e ∈ es, isChunkEvent e = true)
    (hlen : (chunksText es).length = 500) :
    handleDNSText es = some ((chunksText es).take 497 ++ ellipsisBytes) ∧
    ((chunksText es).take 497 ++ ellipsisBytes).length = 500 ∧
    ((chunksText es).take 497 ++ ellipsisBytes).drop 497 = ellipsisBytes := by
  have hacc := accumLoop_exact_500 es [] hall (by simpa) (by norm_num)
  rw [List.nil_append] at hacc
  have htk : ((chunksText es).take 497).length = 497 := by
    rw [List.length_take]
    omega
  refine ⟨?_, ?_, List.drop_left' htk⟩
  · unfold handleDNSText
    rw [hacc]
    show some (finalizeResponse (chunksText es) false) = _
    unfold finalizeResponse
    rw [if_neg (by omega), if_pos ⟨hlen, rfl⟩]
  · rw [List.length_append, htk]
    rfl

/-! ### DNS decode rejection (C1) -/

/-- Reading at the cursor when the remaining bytes are known. -/
theorem getD_of_drop_cons (q : GoStr) (pos x : Nat) (xs : GoStr)
    (h : q.drop pos = x :: xs) : q.getD pos 0 = x := by
  induction pos generalizing q with
  | zero =>
    rw [List.drop_zero] at h
    subst h
    rfl
  | succ p ih =>
    cases q with
    | nil => simp at h
    | cons a q' =>
      rw [List.drop_succ_cons] at h
      rw [List.getD_cons_succ]
      exact ih q' h

/-- A nonempty remainder means the cursor is strictly in range. -/
theorem lt_length_of_drop_cons (q : GoStr) (pos x : Nat) (xs : GoStr)
    (h : q.drop pos = x :: xs) : pos < q.length := by
  by_contra hle
  push_neg at hle
  rw [List.drop_eq_nil_of_le hle] at h
  simp at h

/-- Splitting a drop. -/
theorem drop_add (q : GoStr) (n m : Nat) : q.drop (n + m) = (q.drop n).drop m := by
  rw [List.drop_drop, Nat.add_comm]

/-- Each label occupies its length byte plus its bytes on the wire. -/
theorem length_encodeLabels (ls : List GoStr) : (encodeLabels ls).length = nameLen ls := by
  induction ls with
  | nil => rfl
  | cons l ls ih =>
    show ((l.length :: l) ++ encodeLabels ls).length = nameLen (l :: ls)
    rw [List.length_append, List.length_cons]
    show _ = l.length + 1 + nameLen ls
    omega

/-- Unfolding `nameLen` on a cons. -/
theorem nameLen_cons (l : GoStr) (ls : List GoStr) :
    nameLen (l :: ls) = l.length + 1 + nameLen ls := rfl

/-- Valid labels occupy at least two wire bytes each. -/
theorem two_mul_length_le_nameLen (ls : List GoStr) (h : validLabels ls) :
    2 * ls.length ≤ nameLen ls := by
  induction ls with
  | nil => simp [nameLen]
  | cons l ls ih =>
    have h1 := h l (List.mem_cons_self _ _)
    have h2 : validLabels ls := fun x hx => h x (List.mem_cons_of_mem _ hx)
    have h3 := ih h2
    rw [nameLen_cons]
    simp only [List.length_cons]
    omega

/-- Masking a label length of at most 63 with `0xC0` gives zero. -/
theorem land_C0_of_le_63 (n : Nat) (h : n ≤ 63) : n &&& 0xC0 = 0 := by
  interval_cases n <;> rfl

/-- The label walk hits a `return ""` when, after any run of well-formed
labels, the next length byte exceeds 63 (compression pointer or overlong
label). -/
theorem parseLoop_bad_byte :
    ∀ (ls : List GoStr) (q : GoStr) (pos total fuel : Nat) (acc : List GoStr)
      (b : Nat) (rest : GoStr),
      q.drop pos = encodeLabels ls ++ b :: rest →
      validLabels ls →
      total + nameLen ls ≤ 255 →
      63 < b →
      ls.length < fuel →
      parseLoop q fuel pos total acc = none := by
  intro ls
  induction ls with
  | nil =>
    intro q pos total fuel acc b rest hdrop hv htot hb hfuel
    obtain ⟨f, rfl⟩ : ∃ f, fuel = f + 1 := ⟨fuel - 1, by omega⟩
    have hdrop' : q.drop pos = b :: rest := by
      rw [hdrop]; rfl
    have hpos : pos < q.length := lt_length_of_drop_cons q pos b rest hdrop'
    have hget : q.getD pos 0 = b := getD_of_drop_cons q pos b rest hdrop'
    rw [parseLoop, if_neg (by omega), hget, if_neg (by omega)]
    by_cases hc : b &&& 0xC0 = 0xC0
    · rw [if_pos hc]
    · rw [if_neg hc, if_pos hb]
  | cons l ls ih =>
    intro q pos total fuel acc b rest hdrop hv htot hb hfuel
    obtain ⟨f, rfl⟩ : ∃ f, fuel = f + 1 := ⟨fuel - 1, by omega⟩
    have hl := hv l (List.mem_cons_self _ _)
    have hv' : validLabels ls := fun x hx => hv x (List.mem_cons_of_mem _ hx)
    have hdrop' : q.drop pos = l.length :: (l ++ (encodeLabels ls ++ b :: rest)) := by
      rw [hdrop]
      show (l.length :: l) ++ encodeLabels ls ++ b :: rest = _
      simp [List.append_assoc]
    have hget : q.getD pos 0 = l.length := getD_of_drop_cons _ _ _ _ hdrop'
    have hpos : pos < q.length := lt_length_of_drop_cons _ _ _ _ hdrop'
    have hlenq := congrArg List.length hdrop'
    rw [List.length_drop] at hlenq
    simp only [List.length_cons, List.length_append] at hlenq
    have hdropnext : q.drop (pos + 1 + l.length) = encodeLabels ls ++ b :: rest := by
      have e1 : pos + 1 + l.length = pos + (l.length + 1) := by omega
      rw [e1, drop_add, hdrop', List.drop_succ_cons, List.drop_left]
    rw [parseLoop, if_neg (by omega), hget, if_neg (by omega),
      if_neg (by rw [land_C0_of_le_63 l.length hl.2]; omega),
      if_neg (by omega : ¬ 63 < l.length),
      if_neg (by omega : ¬ q.length < pos + 1 + l.length),
      if_neg (by rw [nameLen_cons] at htot; omega)]
    exact ih q (pos + 1 + l.length) (total + l.length + 1) f _ b rest hdropnext hv'
      (by rw [nameLen_cons] at htot; omega) hb
      (by simp only [List.length_cons] at hfuel; omega)

/-- The label walk hits the `totalLength > 255` rejection when the labels
assemble past 255 bytes (and enough iteration budget remains: each label
consumes at least two name bytes, so `255 < total + 2·fuel` suffices). -/
theorem parseLoop_overlong :
    ∀ (ls : List GoStr) (q : GoStr) (pos total fuel : Nat) (acc : List GoStr)
      (rest : GoStr),
      q.drop pos = encodeLabels ls ++ rest →
      validLabels ls →
      255 < total + nameLen ls →
      total ≤ 255 →
      255 < total + 2 * fuel →
      parseLoop q fuel pos total acc = none := by
  intro ls
  induction ls with
  | nil =>
    intro q pos total fuel acc rest _ _ hgt hle _
    exfalso
    have : nameLen [] = 0 := rfl
    omega
  | cons l ls ih =>
    intro q pos total fuel acc rest hdrop hv hgt hle hfuel
    obtain ⟨f, rfl⟩ : ∃ f, fuel = f + 1 := ⟨fuel - 1, by omega⟩
    have hl := hv l (List.mem_cons_self _ _)
    have hv' : validLabels ls := fun x hx => hv x (List.mem_cons_of_mem _ hx)
    have hdrop' : q.drop pos = l.length :: (l ++ (encodeLabels ls ++ rest)) := by
      rw [hdrop]
      show (l.length :: l) ++ encodeLabels ls ++ rest = _
      simp [List.append_assoc]
    have hget : q.getD pos 0 = l.length := getD_of_drop_cons _ _ _ _ hdrop'
    have hpos : pos < q.length := lt_length_of_drop_cons _ _ _ _ hdrop'
    have hlenq := congrArg List.length hdrop'
    rw [List.length_drop] at hlenq
    simp only [List.length_cons, List.length_append] at hlenq
    have hdropnext : q.drop (pos + 1 + l.length) = encodeLabels ls ++ rest := by
      have e1 : pos + 1 + l.length = pos + (l.length + 1) := by omega
      rw [e1, drop_add, hdrop', List.drop_succ_cons, List.drop_left]
    rw [parseLoop, if_neg (by omega), hget, if_neg (by omega),
      if_neg (by rw [land_C0_of_le_63 l.length hl.2]; omega),
      if_neg (by omega : ¬ 63 < l.length),
      if_neg (by omega : ¬ q.length < pos + 1 + l.length)]
    by_cases hov : 255 < total + l.length + 1
    · rw [if_pos hov]
    · rw [if_neg hov]
      exact ih q (pos + 1 + l.length) (total + l.length + 1) f _ rest hdropnext hv'
        (by rw [nameLen_cons] at hgt; omega) (by omega) (by omega)

/-- Decode failure propagates from the walk: `extractQuestion` returns the
empty (failure) string on a bad label byte. -/
theorem extractQuestion_empty_of_badByte (q : GoStr) (h : hasBadLabelByte q) :
    extractQuestion q = [] := by
  obtain ⟨hdr, ls, b, rest, rfl, hh, hv, hn, hb⟩ := h
  rw [List.append_assoc]
  have hdrop : (hdr ++ (encodeLabels ls ++ b :: rest)).drop 12 =
      encodeLabels ls ++ b :: rest := by
    rw [← hh]
    exact List.drop_left _ _
  have hfuel : ls.length < 128 := by
    have := two_mul_length_le_nameLen ls hv
    omega
  have hnone := parseLoop_bad_byte ls _ 12 0 128 [] b rest hdrop hv (by omega) hb hfuel
  have hlen : ¬ (hdr ++ (encodeLabels ls ++ b :: rest)).length < 12 := by
    rw [List.length_append, hh]
    omega
  unfold extractQuestion
  rw [if_neg hlen, hnone]

/-- Decode failure propagates from the walk: `extractQuestion` returns the
empty (failure) string on an overlong assembled name. -/
theorem extractQuestion_empty_of_overlong (q : GoStr) (h : hasOverlongName q) :
    extractQuestion q = [] := by
  obtain ⟨hdr, ls, rest, rfl, hh, hv, hn⟩ := h
  rw [List.append_assoc]
  have hdrop : (hdr ++ (encodeLabels ls ++ rest)).drop 12 =
      encodeLabels ls ++ rest := by
    rw [← hh]
    exact List.drop_left _ _
  have hnone := parseLoop_overlong ls _ 12 0 128 [] rest hdrop hv (by omega)
    (by omega) (by omega)
  have hlen : ¬ (hdr ++ (encodeLabels ls ++ rest)).length < 12 := by
    rw [List.length_append, hh]
    omega
  unfold extractQuestion
  rw [if_neg hlen, hnone]

/-- Every failure path of the handler sends nothing back. -/
theorem handleQuery_none_of_extractEmpty (ra : Bool) (llm : GoStr) (q : GoStr)
    (h : extractQuestion q = []) : handleQuery ra llm q = none := by
  unfold handleQuery
  by_cases h1 : q.length < 12
  · rw [if_pos h1]
  · rw [if_neg h1]
    by_cases h2 : (!ra) = true
    · rw [if_pos h2]
    · rw [if_neg h2]
      by_cases h3 : q.getD 2 0 &&& 0x80 ≠ 0
      · rw [if_pos h3]
      · rw [if_neg h3, if_pos h]

/-- C1: a datagram shorter than 12 bytes, with the QR bit set, with a label
length byte whose top two bits are `11` or whose value exceeds 63, or whose
labels assemble past 255 bytes, is never answered. -/
theorem handleQuery_rejects (ra : Bool) (llm : GoStr) (q : GoStr)
    (h : q.length < 12 ∨ q.getD 2 0 &&& 0x80 ≠ 0 ∨
      hasBadLabelByte q ∨ hasOverlongName q) :
    handleQuery ra llm q = none := by
  rcases h with h | h | h | h
  · unfold handleQuery
    rw [if_pos h]
  · unfold handleQuery
    by_cases h1 : q.length < 12
    · rw [if_pos h1]
    · rw [if_neg h1]
      by_cases h2 : (!ra) = true
      · rw [if_pos h2]
      · rw [if_neg h2, if_pos h]
  · exact handleQuery_none_of_extractEmpty ra llm q (extractQuestion_empty_of_badByte q h)
  · exact handleQuery_none_of_extractEmpty ra llm q (extractQuestion_empty_of_overlong q h)

/-- Witness for C1: a short datagram, a response datagram, a compression
pointer after one label, and a 128-label (256-byte) name, all dropped. -/
theorem handleQuery_rejects_witness :
    handleQuery true [52] [1, 2, 3] = none ∧
    handleQuery true [52]
      ([0, 0, 0x80, 0, 0, 1, 0, 0, 0, 0, 0, 0] ++ [1, 97, 0, 0, 0, 16, 0, 1]) = none ∧
    handleQuery true [52]
      ([0, 0, 0, 0, 0, 1, 0, 0, 0, 0, 0, 0] ++ encodeLabels [[97]] ++
        0xC0 :: [0, 0, 0, 16, 0, 1]) = none ∧
    handleQuery true [52]
      ([0, 0, 0, 0, 0, 1, 0, 0, 0, 0, 0, 0] ++ encodeLabels (List.replicate 128 [97]) ++
        [0, 0, 16, 0, 1]) = none :=
  ⟨handleQuery_rejects true [52] _ (Or.inl (by decide)),
   handleQuery_rejects true [52] _ (Or.inr (Or.inl (by decide))),
   handleQuery_rejects true [52] _ (Or.inr (Or.inr (Or.inl
     ⟨[0, 0, 0, 0, 0, 1, 0, 0, 0, 0, 0, 0], [[97]], 0xC0, [0, 0, 0, 16, 0, 1],
       rfl, by decide, by decide, by decide, by decide⟩))),
   handleQuery_rejects true [52] _ (Or.inr (Or.inr (Or.inr
     ⟨[0, 0, 0, 0, 0, 1, 0, 0, 0, 0, 0, 0], List.replicate 128 [97], [0, 0, 16, 0, 1],
       rfl, by decide, by decide, by decide⟩)))⟩

/-! ### Rate limiting (C3, C10) -/

/-- Behaviour of `rateLimitAllow` when the hourly cleanup does not fire. -/
theorem rateLimitAllow_no_clean_step (s : RLState) (t : Int) (ip : String)
    (hclean : ¬ (hourNs < t - s.lastClean)) :
    rateLimitAllow s t ip =
      ((limiterAllow ((s.limiters ip).getD newLimiter) t).1,
       { limiters := fun k =>
           if k = ip then some (limiterAllow ((s.limiters ip).getD newLimiter) t).2
           else s.limiters k,
         lastClean := s.lastClean }) := by
  unfold rateLimitAllow
  rw [if_neg hclean]

/-- Behaviour of `rateLimitAllow` when the hourly cleanup fires first. -/
theorem rateLimitAllow_clean_step (s : RLState) (t : Int) (ip : String)
    (hclean : hourNs < t - s.lastClean) :
    rateLimitAllow s t ip =
      ((limiterAllow ((cleanPass s.limiters t ip).getD newLimiter) t).1,
       { limiters := fun k =>
           if k = ip then some (limiterAllow ((cleanPass s.limiters t ip).getD newLimiter) t).2
           else cleanPass s.limiters t k,
         lastClean := t }) := by
  unfold rateLimitAllow
  rw [if_pos hclean]

/-- Unfolding `advance` by the defining equation. -/
theorem advanceTokens_mk (a b t : Int) :
    advanceTokens ⟨a, b⟩ t =
      if burstUnits < a + (t - (if t < b then t else b)) * refillPerNs then burstUnits
      else a + (t - (if t < b then t else b)) * refillPerNs := rfl

/-- Refill is a no-op when no time has passed since the last update. -/
theorem advanceTokens_same_instant (tok t : Int) (htok : tok ≤ burstUnits) :
    advanceTokens ⟨tok, t⟩ t = tok := by
  rw [advanceTokens_mk, if_neg (lt_irrefl t)]
  simp only [sub_self, zero_mul, add_zero]
  rw [if_neg (by omega)]

/-- Calling `Allow` with no elapsed time: pay one token or fail. -/
theorem limiterAllow_same_instant (tok t : Int) (htok : tok ≤ burstUnits) :
    limiterAllow ⟨tok, t⟩ t =
      if oneToken ≤ tok then (true, ⟨tok - oneToken, t⟩) else (false, ⟨tok, t⟩) := by
  unfold limiterAllow
  rw [advanceTokens_same_instant tok t htok]

/-- A fresh limiter is already full at any instant of at least six seconds,
so its first `Allow` succeeds and leaves nine tokens. -/
theorem limiterAllow_fresh (t : Int) (ht : sixSecondsNs ≤ t) :
    limiterAllow newLimiter t = (true, ⟨burstUnits - oneToken, t⟩) := by
  have h0 : ¬ t < (0 : Int) := by
    simp only [sixSecondsNs] at ht
    omega
  have hadv : advanceTokens newLimiter t = burstUnits := by
    rw [show newLimiter = (⟨0, 0⟩ : Limiter) from rfl, advanceTokens_mk, if_neg h0]
    by_cases hcap : burstUnits < 0 + (t - 0) * refillPerNs
    · rw [if_pos hcap]
    · rw [if_neg hcap]
      simp only [burstUnits, refillPerNs, sixSecondsNs] at ht hcap ⊢
      omega
  unfold limiterAllow
  rw [hadv, if_pos (by simp only [oneToken, burstUnits]; omega)]

/-- The run of same-instant calls against a bucket holding `10 - k` tokens:
the `i`-th call succeeds exactly when `i + k < 10`. -/
theorem runAllow_replicate_from (t : Int) (key : String) :
    ∀ (n k : Nat) (s : RLState), k ≤ 10 →
      s.limiters key = some ⟨burstUnits - k * oneToken, t⟩ →
      ¬ (hourNs < t - s.lastClean) →
      runAllow s (List.replicate n (t, key)) =
        (List.range n).map (fun i => decide (i + k < 10)) := by
  intro n
  induction n with
  | zero => intro k s _ _ _; rfl
  | succ n ih =>
    intro k s hk hkey hclean
    rw [List.replicate_succ, runAllow, rateLimitAllow_no_clean_step s t key hclean, hkey]
    simp only [Option.getD_some]
    rw [limiterAllow_same_instant (burstUnits - k * oneToken) t
      (by simp only [burstUnits, oneToken]; omega)]
    by_cases hklt : k < 10
    · rw [if_pos (by simp only [oneToken, burstUnits]; omega)]
      have harith : burstUnits - (k : Int) * oneToken - oneToken =
          burstUnits - ((k + 1 : Nat) : Int) * oneToken := by
        push_cast
        ring
      show true :: runAllow
          ⟨fun k' => if k' = key
            then some ⟨burstUnits - k * oneToken - oneToken, t⟩
            else s.limiters k', s.lastClean⟩
          (List.replicate n (t, key)) =
        List.map (fun i => decide (i + k < 10)) (List.range (n + 1))
      have hstate : (⟨fun k' => if k' = key
            then some ⟨burstUnits - k * oneToken - oneToken, t⟩
            else s.limiters k', s.lastClean⟩ : RLState).limiters key =
          some ⟨burstUnits - ((k + 1 : Nat) : Int) * oneToken, t⟩ := by
        show (if key = key
          then some (⟨burstUnits - k * oneToken - oneToken, t⟩ : Limiter)
          else s.limiters key) = _
        rw [if_pos rfl, harith]
      rw [ih (k + 1) _ (by omega) hstate hclean]
      rw [List.range_succ_eq_map, List.map_cons, List.map_map]
      congr 1
      · simp [hklt]
      · apply List.map_congr_left
        intro i _
        simp only [Function.comp_apply]
        rw [decide_eq_decide]
        omega
    · rw [if_neg (by simp only [oneToken, burstUnits]; omega)]
      show false :: runAllow
          ⟨fun k' => if k' = key
            then some ⟨burstUnits - k * oneToken, t⟩
            else s.limiters k', s.lastClean⟩
          (List.replicate n (t, key)) =
        List.map (fun i => decide (i + k < 10)) (List.range (n + 1))
      have hstate : (⟨fun k' => if k' = key
            then some ⟨burstUnits - k * oneToken, t⟩
            else s.limiters k', s.lastClean⟩ : RLState).limiters key =
          some ⟨burstUnits - (k : Int) * oneToken, t⟩ := by
        show (if key = key
          then some (⟨burstUnits - k * oneToken, t⟩ : Limiter)
          else s.limiters key) = _
        rw [if_pos rfl]
      rw [ih k _ hk hstate hclean]
      rw [List.range_succ_eq_map, List.map_cons, List.map_map]
      congr 1
      · have hd : decide (0 + k < 10) = false := by
          rw [decide_eq_false_iff_not]
          omega
        rw [hd]
      · apply List.map_congr_left
        intro i _
        simp only [Function.comp_apply]
        rw [decide_eq_decide]
        omega

/-- After the first successful call the bucket holds nine tokens. -/
theorem runAllow_after_first (t : Int) (key : String) (n : Nat) (s' : RLState)
    (hkey : s'.limiters key = some ⟨burstUnits - oneToken, t⟩)
    (hclean : ¬ (hourNs < t - s'.lastClean)) :
    true :: runAllow s' (List.replicate n (t, key)) =
      (List.range (n + 1)).map (fun i => decide (i < 10)) := by
  have harith : burstUnits - oneToken = burstUnits - ((1 : Nat) : Int) * oneToken := by
    push_cast
    ring
  rw [runAllow_replicate_from t key n 1 s' (by omega) (by rw [hkey, harith]) hclean]
  rw [List.range_succ_eq_map, List.map_cons, List.map_map]
  rfl

/-- C3: starting with the key untracked, a sequence of `Allow` calls made at
one instant (no refill can occur) returns `true` for exactly the first ten
calls and `false` for every later one — in particular the 11th and the
101st call both fail. -/
theorem rateLimit_first_ten (s : RLState) (t : Int) (key : String) (n : Nat)
    (hkey : s.limiters key = none) (ht : sixSecondsNs ≤ t) :
    runAllow s (List.replicate n (t, key)) =
      (List.range n).map (fun i => decide (i < 10)) := by
  cases n with
  | zero => rfl
  | succ n =>
    rw [List.replicate_succ, runAllow]
    by_cases hc : hourNs < t - s.lastClean
    · rw [rateLimitAllow_clean_step s t key hc]
      have hkey1 : cleanPass s.limiters t key = none := by
        unfold cleanPass
        rw [hkey]
      rw [hkey1]
      simp only [Option.getD_none]
      rw [limiterAllow_fresh t ht]
      exact runAllow_after_first t key n
        ⟨fun k => if k = key then some ⟨burstUnits - oneToken, t⟩
          else cleanPass s.limiters t k, t⟩
        (by
          show (if key = key then some (⟨burstUnits - oneToken, t⟩ : Limiter)
            else cleanPass s.limiters t key) = _
          rw [if_pos rfl])
        (by
          show ¬ (hourNs < t - t)
          simp only [hourNs]
          omega)
    · rw [rateLimitAllow_no_clean_step s t key hc, hkey]
      simp only [Option.getD_none]
      rw [limiterAllow_fresh t ht]
      exact runAllow_after_first t key n
        ⟨fun k => if k = key then some ⟨burstUnits - oneToken, t⟩
          else s.limiters k, s.lastClean⟩
        (by
          show (if key = key then some (⟨burstUnits - oneToken, t⟩ : Limiter)
            else s.limiters key) = _
          rw [if_pos rfl])
        hc

/-- Saturation only strengthens as the horizon moves forward. -/
theorem saturatedFrom_mono (l : Limiter) (t t' : Int) (h : saturatedFrom l t)
    (hle : t ≤ t') : saturatedFrom l t' :=
  fun s hs => h s (le_trans hle hs)

/-- A fresh limiter refills from the zero time and becomes full at any
instant past six seconds. -/
theorem advanceTokens_fresh_full (t : Int) (ht : sixSecondsNs ≤ t) :
    advanceTokens newLimiter t = burstUnits := by
  have h0 : ¬ t < (0 : Int) := by
    simp only [sixSecondsNs] at ht
    omega
  rw [show newLimiter = (⟨0, 0⟩ : Limiter) from rfl, advanceTokens_mk, if_neg h0]
  by_cases hcap : burstUnits < 0 + (t - 0) * refillPerNs
  · rw [if_pos hcap]
  · rw [if_neg hcap]
    simp only [burstUnits, refillPerNs, sixSecondsNs] at ht hcap ⊢
    omega

/-- A fresh limiter stays full (until used) from six seconds on. -/
theorem saturatedFrom_newLimiter (t : Int) (ht : sixSecondsNs ≤ t) :
    saturatedFrom newLimiter t :=
  fun s hs => advanceTokens_fresh_full s (le_trans ht hs)

/-- A bucket seen full stays full at every later instant (its `last` does
not move while it is only being read). -/
theorem saturatedFrom_of_full (l : Limiter) (now : Int) (hlast : l.last ≤ now)
    (hfull : burstUnits ≤ advanceTokens l now) : saturatedFrom l now := by
  intro s hs
  obtain ⟨tok, last⟩ := l
  simp only at hlast
  rw [advanceTokens_mk, if_neg (by omega : ¬ s < last)]
  rw [advanceTokens_mk, if_neg (by omega : ¬ now < last)] at hfull
  by_cases hrawnow : burstUnits < tok + (now - last) * refillPerNs
  · by_cases hraws : burstUnits < tok + (s - last) * refillPerNs
    · rw [if_pos hraws]
    · exfalso
      simp only [refillPerNs] at hrawnow hraws
      omega
  · rw [if_neg hrawnow] at hfull
    by_cases hraws : burstUnits < tok + (s - last) * refillPerNs
    · rw [if_pos hraws]
    · rw [if_neg hraws]
      simp only [refillPerNs] at hrawnow hraws hfull ⊢
      omega

/-- Calling `Allow` on a saturated limiter: one token paid out of a full bucket. -/
theorem limiterAllow_saturated (l : Limiter) (now : Int)
    (hsat : saturatedFrom l now) :
    limiterAllow l now = (true, ⟨burstUnits - oneToken, now⟩) := by
  unfold limiterAllow
  rw [hsat now le_rfl, if_pos (by simp only [oneToken, burstUnits]; omega)]

/-- The simulation relation survives moving the horizon forward. -/
theorem tableRel_mono (t t' : Int) (mw mo : String → Option Limiter)
    (h : TableRel t mw mo) (hle : t ≤ t') : TableRel t' mw mo := by
  obtain ⟨h1, h2, h3⟩ := h
  refine ⟨?_, ?_, ?_⟩
  · intro k
    rcases h1 k with hk | ⟨hk, l, hl, hsat⟩
    · exact Or.inl hk
    · exact Or.inr ⟨hk, l, hl, saturatedFrom_mono l t t' hsat hle⟩
  · intro k l hk
    exact le_trans (h2 k l hk) hle
  · intro k l hk
    exact le_trans (h3 k l hk) hle

/-- Evaluating `cleanPass` on an untracked key. -/
theorem cleanPass_none (mw : String → Option Limiter) (now : Int) (k : String)
    (h : mw k = none) : cleanPass mw now k = none := by
  unfold cleanPass
  rw [h]

/-- Evaluating `cleanPass` on a tracked key. -/
theorem cleanPass_some (mw : String → Option Limiter) (now : Int) (k : String)
    (l : Limiter) (h : mw k = some l) :
    cleanPass mw now k =
      if burstUnits ≤ advanceTokens l now then none else some l := by
  unfold cleanPass
  rw [h]

/-- The cleanup pass only deletes saturated buckets, so it preserves the
simulation relation. -/
theorem tableRel_cleanPass (t now : Int) (mw mo : String → Option Limiter)
    (h : TableRel t mw mo) (hle : t ≤ now) : TableRel now (cleanPass mw now) mo := by
  obtain ⟨h1, h2, h3⟩ := h
  refine ⟨?_, ?_, ?_⟩
  · intro k
    rcases h1 k with hk | ⟨hk, l, hl, hsat⟩
    · cases hmk : mw k with
      | none =>
        left
        rw [cleanPass_none mw now k hmk, ← hk, hmk]
      | some l =>
        by_cases hfull : burstUnits ≤ advanceTokens l now
        · right
          refine ⟨?_, l, by rw [← hk, hmk], ?_⟩
          · rw [cleanPass_some mw now k l hmk, if_pos hfull]
          · exact saturatedFrom_of_full l now (le_trans (h2 k l hmk) hle) hfull
        · left
          rw [cleanPass_some mw now k l hmk, if_neg hfull, ← hk, hmk]
    · right
      refine ⟨?_, l, hl, saturatedFrom_mono l t now hsat hle⟩
      exact cleanPass_none mw now k hk
  · intro k l hk
    cases hmk : mw k with
    | none =>
      rw [cleanPass_none mw now k hmk] at hk
      exact absurd hk (by simp)
    | some l' =>
      rw [cleanPass_some mw now k l' hmk] at hk
      by_cases hfull : burstUnits ≤ advanceTokens l' now
      · rw [if_pos hfull] at hk
        exact absurd hk (by simp)
      · rw [if_neg hfull] at hk
        cases hk
        exact le_trans (h2 k _ hmk) hle
  · intro k l hk
    exact le_trans (h3 k l hk) hle

/-- Method `Allow` never moves `last` past the call instant. -/
theorem limiterAllow_last_le (l : Limiter) (now : Int) (hl : l.last ≤ now) :
    (limiterAllow l now).2.last ≤ now := by
  unfold limiterAllow
  by_cases hall : oneToken ≤ advanceTokens l now
  · rw [if_pos hall]
  · rw [if_neg hall]
    exact hl

/-- Updating both tables at one key with the same limiter preserves the
simulation relation. -/
theorem tableRel_update (now : Int) (m1 mo : String → Option Limiter)
    (ip : String) (lw : Limiter) (hrel : TableRel now m1 mo)
    (hlast : lw.last ≤ now) :
    TableRel now (fun k => if k = ip then some lw else m1 k)
      (fun k => if k = ip then some lw else mo k) := by
  obtain ⟨h1, h2, h3⟩ := hrel
  refine ⟨?_, ?_, ?_⟩
  · intro k
    by_cases hk : k = ip
    · left
      show (if k = ip then some lw else m1 k) = (if k = ip then some lw else mo k)
      rw [if_pos hk, if_pos hk]
    · rcases h1 k with h | ⟨h, l', hl', hsat'⟩
      · left
        show (if k = ip then some lw else m1 k) = (if k = ip then some lw else mo k)
        rw [if_neg hk, if_neg hk]
        exact h
      · right
        refine ⟨?_, l', ?_, hsat'⟩
        · show (if k = ip then some lw else m1 k) = none
          rw [if_neg hk]
          exact h
        · show (if k = ip then some lw else mo k) = some l'
          rw [if_neg hk]
          exact hl'
  · intro k l hk
    have hk2 : (if k = ip then some lw else m1 k) = some l := hk
    by_cases hkip : k = ip
    · rw [if_pos hkip] at hk2
      cases hk2
      exact hlast
    · rw [if_neg hkip] at hk2
      exact h2 k l hk2
  · intro k l hk
    have hk2 : (if k = ip then some lw else mo k) = some l := hk
    by_cases hkip : k = ip
    · rw [if_pos hkip] at hk2
      cases hk2
      exact hlast
    · rw [if_neg hkip] at hk2
      exact h3 k l hk2

/-- One call preserves the relation and returns the same answer with and
without the cleanup pass. -/
theorem rateLimit_step_equiv (t now lc : Int) (ip : String)
    (mw mo : String → Option Limiter)
    (hrel : TableRel t mw mo) (hle : t ≤ now) (hnow : sixSecondsNs ≤ now) :
    (rateLimitAllow ⟨mw, lc⟩ now ip).1 = (rateLimitAllowNoClean mo now ip).1 ∧
    TableRel now (rateLimitAllow ⟨mw, lc⟩ now ip).2.limiters
      (rateLimitAllowNoClean mo now ip).2 := by
  have h0now : (0 : Int) ≤ now := by
    simp only [sixSecondsNs] at hnow
    omega
  have key : ∀ (m1 : String → Option Limiter), TableRel now m1 mo →
      (limiterAllow ((m1 ip).getD newLimiter) now).1 =
        (limiterAllow ((mo ip).getD newLimiter) now).1 ∧
      TableRel now
        (fun k => if k = ip then some (limiterAllow ((m1 ip).getD newLimiter) now).2
          else m1 k)
        (fun k => if k = ip then some (limiterAllow ((mo ip).getD newLimiter) now).2
          else mo k) := by
    intro m1 hrel1
    rcases hrel1.1 ip with hip | ⟨hip, l, hl, hsat⟩
    · rw [hip]
      have hlast : ((mo ip).getD newLimiter).last ≤ now := by
        cases hmo : mo ip with
        | none => exact h0now
        | some lw => exact hrel1.2.2 ip lw hmo
      exact ⟨rfl, tableRel_update now m1 mo ip _ hrel1
        (limiterAllow_last_le _ now hlast)⟩
    · rw [hip, hl]
      simp only [Option.getD_some, Option.getD_none]
      rw [limiterAllow_fresh now hnow, limiterAllow_saturated l now hsat]
      exact ⟨rfl, tableRel_update now m1 mo ip ⟨burstUnits - oneToken, now⟩ hrel1 le_rfl⟩
  by_cases hc : hourNs < now - lc
  · rw [rateLimitAllow_clean_step ⟨mw, lc⟩ now ip hc]
    exact key (cleanPass mw now) (tableRel_cleanPass t now mw mo hrel hle)
  · rw [rateLimitAllow_no_clean_step ⟨mw, lc⟩ now ip hc]
    exact key mw (tableRel_mono t now mw mo hrel hle)

/-- The paired run: related tables produce identical result sequences. -/
theorem runAllow_equiv_aux :
    ∀ (calls : List (Int × String)) (t lc : Int)
      (mw mo : String → Option Limiter),
      TableRel t mw mo →
      List.Chain (fun a b : Int => a ≤ b) t (calls.map Prod.fst) →
      sixSecondsNs ≤ t →
      runAllow ⟨mw, lc⟩ calls = runAllowNoClean mo calls := by
  intro calls
  induction calls with
  | nil => intro t lc mw mo _ _ _; rfl
  | cons c rest ih =>
    intro t lc mw mo hrel hchain ht
    obtain ⟨now, ip⟩ := c
    rw [List.map_cons, List.chain_cons] at hchain
    obtain ⟨hle, hchain'⟩ := hchain
    have hnow : sixSecondsNs ≤ now := le_trans ht hle
    have hstep := rateLimit_step_equiv t now lc ip mw mo hrel hle hnow
    show (rateLimitAllow ⟨mw, lc⟩ now ip).1 ::
        runAllow (rateLimitAllow ⟨mw, lc⟩ now ip).2 rest =
      (rateLimitAllowNoClean mo now ip).1 ::
        runAllowNoClean (rateLimitAllowNoClean mo now ip).2 rest
    exact congr (congrArg List.cons hstep.1)
      (ih now (rateLimitAllow ⟨mw, lc⟩ now ip).2.lastClean
        (rateLimitAllow ⟨mw, lc⟩ now ip).2.limiters
        (rateLimitAllowNoClean mo now ip).2 hstep.2 hchain' hnow)

/-- C10: starting from the empty table, `rateLimitAllow` with the hourly
cleanup pass and `rateLimitAllow` without it return identical results on
every monotone call sequence at realistic instants — the cleanup only
deletes full buckets, and a deleted full bucket is indistinguishable from
the fresh limiter `LoadOrStore` recreates. -/
theorem rateLimit_cleanup_equiv (calls : List (Int × String)) (lc0 : Int)
    (hchain : List.Chain (fun a b : Int => a ≤ b) sixSecondsNs
      (calls.map Prod.fst)) :
    runAllow ⟨fun _ => none, lc0⟩ calls = runAllowNoClean (fun _ => none) calls := by
  refine runAllow_equiv_aux calls sixSecondsNs lc0 _ _ ?_ hchain le_rfl
  refine ⟨fun k => Or.inl rfl, ?_, ?_⟩
  · intro k l hk
    exact absurd hk (by simp)
  · intro k l hk
    exact absurd hk (by simp)

/-- Witness for C10: three calls spanning a cleanup-triggering gap give the
same answers with and without the cleanup pass. -/
theorem rateLimit_cleanup_equiv_witness :
    runAllow ⟨fun _ => none, 0⟩
        [((6000000000 : Int), "a"), (7000000000, "b"), (7300000000000, "a")] =
      runAllowNoClean (fun _ => none)
        [((6000000000 : Int), "a"), (7000000000, "b"), (7300000000000, "a")] :=
  rateLimit_cleanup_equiv _ 0 (by
    simp only [List.map_cons, List.map_nil, List.chain_cons, sixSecondsNs]
    exact ⟨by decide, by decide, by decide, List.Chain.nil⟩)

/-- Witness for C3: eleven rapid calls from a fresh key — ten `true`, then
`false`. -/
theorem rateLimit_first_ten_witness :
    runAllow ⟨fun _ => none, 0⟩ (List.replicate 11 ((6000000000 : Int), "1.2.3.4")) =
      (List.range 11).map (fun i => decide (i < 10)) :=
  rateLimit_first_ten ⟨fun _ => none, 0⟩ 6000000000 "1.2.3.4" 11 rfl (by decide)

/-- Witness for C8 (amended) at a concrete two-fragment run. -/
theorem exact_limit_truncates_witness :
    handleDNSText
        [DNSEvent.chunk (List.replicate 250 98), DNSEvent.chunk (List.replicate 250 99)] =
      some ((chunksText
        [DNSEvent.chunk (List.replicate 250 98), DNSEvent.chunk (List.replicate 250 99)]).take 497
          ++ ellipsisBytes) :=
  (exact_limit_truncates _ (by decide) (by decide)).1

/-! ### DNS response flags (C4) and truncation (C5) -/

/-- Reading with `getD` after `set` at the written index. -/
theorem getD_set_self (l : List Nat) (i v : Nat) (h : i < l.length) :
    (l.set i v).getD i 0 = v := by
  induction l generalizing i with
  | nil => simp at h
  | cons a l ih =>
    cases i with
    | zero => rfl
    | succ i =>
      rw [List.set_cons_succ, List.getD_cons_succ]
      exact ih i (by simpa using h)

/-- Reading with `getD` after `set` at another index. -/
theorem getD_set_ne (l : List Nat) (i j v : Nat) (h : i ≠ j) :
    (l.set i v).getD j 0 = l.getD j 0 := by
  induction l generalizing i j with
  | nil => rfl
  | cons a l ih =>
    cases i with
    | zero =>
      cases j with
      | zero => exact absurd rfl h
      | succ j => rfl
    | succ i =>
      cases j with
      | zero => rfl
      | succ j =>
        rw [List.set_cons_succ, List.getD_cons_succ, List.getD_cons_succ]
        exact ih i j (by omega)

/-- Reading with `getD` inside the taken prefix. -/
theorem getD_take_lt (l : List Nat) (n i : Nat) (h : i < n) :
    (l.take n).getD i 0 = l.getD i 0 := by
  induction l generalizing n i with
  | nil => simp
  | cons a l ih =>
    cases n with
    | zero => omega
    | succ n =>
      cases i with
      | zero => rfl
      | succ i =>
        rw [List.take_succ_cons, List.getD_cons_succ, List.getD_cons_succ]
        exact ih n i (by omega)

/-- C4 (code bug, evaluated at a well-formed query): `buildDNSResponse`
writes flag byte 2 as `0x81` — QR (0x80) set, RD set, but the AA bit
(0x04) clear — although the code's own comment says `QR=1, AA=1` and the
claim requires AA to be set.  The remaining claimed facts do hold here: the
transaction ID and question section are preserved verbatim, ANCOUNT is 1,
and the answer record begins with the compression pointer `C0 0C` to the
name at offset 12. -/
theorem buildDNSResponse_AA_clear :
    (buildDNSResponse exampleQuery [52]).getD 2 0 = 0x81 ∧
    (buildDNSResponse exampleQuery [52]).getD 2 0 &&& 0x04 = 0 ∧
    (buildDNSResponse exampleQuery [52]).getD 2 0 &&& 0x80 ≠ 0 ∧
    (buildDNSResponse exampleQuery [52]).take 2 = exampleQuery.take 2 ∧
    ((buildDNSResponse exampleQuery [52]).drop 12).take 7 =
      (exampleQuery.drop 12).take 7 ∧
    (buildDNSResponse exampleQuery [52]).getD 7 0 = 1 ∧
    (buildDNSResponse exampleQuery [52]).getD 19 0 = 0xC0 ∧
    (buildDNSResponse exampleQuery [52]).getD 20 0 = 0x0C := by decide

/-- C5 counterexample: with a 533-byte assembled response, the datagram
written is not byte-for-byte the first 512 bytes of the assembled response:
byte 2 carries the TC bit on the wire (`0x83`) but not in the assembled
response (`0x81`). -/
theorem truncation_counterexample :
    handleQuery true longAnswer exampleQuery ≠
      some ((buildDNSResponse exampleQuery longAnswer).take 512) ∧
    (handleQuery true longAnswer exampleQuery).map (fun l => l.getD 2 0) =
      some 0x83 ∧
    (buildDNSResponse exampleQuery longAnswer).getD 2 0 = 0x81 := by decide

/-- C5 (amended): a reply over 512 bytes is written as exactly 512 bytes
with the TC bit (0x02) or'ed into flag byte 2 and every other byte equal to
the corresponding byte of the assembled response; a reply of at most 512
bytes is written unchanged. -/
theorem handleQuery_truncation (ra : Bool) (llm q out : GoStr)
    (h : handleQuery ra llm q = some out) :
    (512 < (buildDNSResponse q llm).length →
      out.length = 512 ∧
      out.getD 2 0 = (buildDNSResponse q llm).getD 2 0 ||| 0x02 ∧
      (∀ i, i < 512 → i ≠ 2 →
        out.getD i 0 = (buildDNSResponse q llm).getD i 0)) ∧
    ((buildDNSResponse q llm).length ≤ 512 → out = buildDNSResponse q llm) := by
  simp only [handleQuery] at h
  split_ifs at h with h1 h2 h3 h4 h5
  · have hout := Option.some.inj h
    subst hout
    refine ⟨fun _ => ⟨?_, ?_, ?_⟩, fun hle => absurd h5 (by omega)⟩
    · rw [List.length_set, List.length_take]
      omega
    · exact getD_set_self _ 2 _ (by rw [List.length_take]; omega)
    · intro i hi hne
      rw [getD_set_ne _ 2 i _ (by omega), getD_take_lt _ 512 i hi]
  · have hout := Option.some.inj h
    subst hout
    exact ⟨fun hgt => absurd hgt h5, fun _ => rfl⟩

/-- Witness for C5 (amended) at the concrete 533-byte response. -/
theorem handleQuery_truncation_witness :
    (((buildDNSResponse exampleQuery longAnswer).take 512).set 2
        ((buildDNSResponse exampleQuery longAnswer).getD 2 0 ||| 0x02)).length = 512 ∧
    (((buildDNSResponse exampleQuery longAnswer).take 512).set 2
        ((buildDNSResponse exampleQuery longAnswer).getD 2 0 ||| 0x02)).getD 2 0 =
      (buildDNSResponse exampleQuery longAnswer).getD 2 0 ||| 0x02 ∧
    (∀ i, i < 512 → i ≠ 2 →
      (((buildDNSResponse exampleQuery longAnswer).take 512).set 2
        ((buildDNSResponse exampleQuery longAnswer).getD 2 0 ||| 0x02)).getD i 0 =
      (buildDNSResponse exampleQuery longAnswer).getD i 0) :=
  (handleQuery_truncation true longAnswer exampleQuery
    (((buildDNSResponse exampleQuery longAnswer).take 512).set 2
      ((buildDNSResponse exampleQuery longAnswer).getD 2 0 ||| 0x02))
    (by decide)).1 (by decide)

/-! ### SSH line editing (C9) -/

/-- C9: a backspace (0x08) or delete (0x7F) arriving while the line buffer
is nonempty removes exactly the last buffered codepoint — `dropLast` on the
rune list, so a trailing multi-byte UTF-8 character is removed as one unit —
and echoes the visual erase sequence `"\b \b"`; the session neither
terminates nor submits a line. -/
theorem backspace_removes_last_rune (input : List Char) (c : Char)
    (hne : input ≠ []) (hc : c = Char.ofNat 8 ∨ c = Char.ofNat 127) :
    sessionStep input c =
      { input := input.dropLast, echo := [Char.ofNat 8, ' ', Char.ofNat 8],
        terminated := false, submitted := none } := by
  have h3 : ¬ c = Char.ofNat 3 := by
    rcases hc with rfl | rfl <;> decide
  have hn : ¬ (c = Char.ofNat 10 ∨ c = Char.ofNat 13) := by
    rcases hc with rfl | rfl <;> decide
  have hlen : 0 < input.length := List.length_pos.mpr hne
  unfold sessionStep
  rw [if_neg h3, if_neg hn, if_pos hc, if_pos hlen]

/-- Witness for C9: deleting after a two-byte UTF-8 character removes the
whole character, not one byte. -/
theorem backspace_removes_last_rune_witness :
    sessionStep ['h', 'é'] (Char.ofNat 127) =
      { input := ['h'], echo := [Char.ofNat 8, ' ', Char.ofNat 8],
        terminated := false, submitted := none } ∧
    ('é' : Char).utf8Size = 2 :=
  ⟨backspace_removes_last_rune ['h', 'é'] (Char.ofNat 127) (by decide) (Or.inr rfl),
   by decide⟩

end ChAt
